import Mathlib

/-!
Shallow embedding of the circular intrusive doubly-linked-list library
(`dll.c` / `dll.h`).

Memory is modelled as a total heap `Int → Link` mapping link addresses to
link contents; pointers are integers with `0` playing the role of `NULL`.
A record at data address `d` owns the link at address `d + offset`
(`link_from_data`), and conversely `data_from_link` subtracts the offset,
exactly as the pointer arithmetic in `dll.c` does.

Every operation of `dll.c` is translated statement by statement; heap
writes are sequenced in the same order as the C assignments.
-/

namespace Dll

/-- The `dll_link_t` struct: a pair of link pointers. -/
structure Link where
  next_p : Int
  prev_p : Int
deriving DecidableEq, Repr

/-- Memory: every integer address holds a `Link` value. -/
abbrev Heap := Int → Link

/-- Store a whole `Link` value at address `a`. -/
def writeLink (h : Heap) (a : Int) (v : Link) : Heap :=
  fun x => if x = a then v else h x

/-- The C assignment `a->next_p = n`. -/
def setNext (h : Heap) (a n : Int) : Heap :=
  writeLink h a { h a with next_p := n }

/-- The C assignment `a->prev_p = p`. -/
def setPrev (h : Heap) (a p : Int) : Heap :=
  writeLink h a { h a with prev_p := p }

/-- `data_from_link` in `dll.c`: `(char*)link_p - offset`. -/
def data_from_link (offset link : Int) : Int := link - offset

/-- `link_from_data` in `dll.c`: `(char*)data_p + offset`. -/
def link_from_data (offset data : Int) : Int := data + offset

/-- The sentinel `0xdeadbeef` that `dll_init_link` writes. -/
def poison : Int := 0xdeadbeef

/-- `dll_init_root`: the empty list root is the null pointer. -/
def dll_init_root : Int := 0

/-- `dll_init_link`: write the sentinel into both fields of the link. -/
def dll_init_link (h : Heap) (link : Int) : Heap :=
  setPrev (setNext h link poison) link poison

/-- `dll_push_tail`: weave the element's link in between the current tail
(`(*head_link_pp)->prev_p`) and the current head, or make it the sole
self-referencing member of an empty list.  Returns the new root value
together with the new heap. -/
def dll_push_tail (offset root elt : Int) (h : Heap) : Int × Heap :=
  let new_link := link_from_data offset elt
  if root ≠ 0 then
    let right_link := root
    let left_link := (h right_link).prev_p
    let h1 := setNext h new_link right_link
    let h2 := setPrev h1 new_link left_link
    let h3 := setNext h2 left_link new_link
    let h4 := setPrev h3 right_link new_link
    (root, h4)
  else
    (new_link, writeLink h new_link ⟨new_link, new_link⟩)

/-- `dll_push_head`: `dll_push_tail` followed by `*head_link_pp = LFD(elt_p)`. -/
def dll_push_head (offset root elt : Int) (h : Heap) : Int × Heap :=
  let s := dll_push_tail offset root elt h
  (link_from_data offset elt, s.2)

/-- `dll_pop_head`: returns `(popped data pointer, new root, new heap)`;
the popped pointer is `0` (NULL) when the list is empty. -/
def dll_pop_head (offset root : Int) (h : Heap) : Int × Int × Heap :=
  if root = 0 then (0, root, h)
  else
    let pop_link := root
    if (h pop_link).next_p ≠ pop_link then
      let right_link := (h pop_link).next_p
      let left_link := (h pop_link).prev_p
      let h1 := setNext h left_link right_link
      let h2 := setPrev h1 right_link left_link
      (data_from_link offset pop_link, right_link, dll_init_link h2 pop_link)
    else
      (data_from_link offset pop_link, 0, dll_init_link h pop_link)

/-- `dll_head`: data pointer of the first element, or NULL. -/
def dll_head (offset root : Int) : Int :=
  if root ≠ 0 then data_from_link offset root else 0

/-- `dll_tail`: data pointer of `(*head_link_pp)->prev_p`, or NULL. -/
def dll_tail (offset root : Int) (h : Heap) : Int :=
  if root ≠ 0 then data_from_link offset ((h root).prev_p) else 0

/-- `dll_next`: data pointer of the successor link. -/
def dll_next (offset elt : Int) (h : Heap) : Int :=
  data_from_link offset ((h (link_from_data offset elt)).next_p)

/-- `dll_prev`: data pointer of the predecessor link. -/
def dll_prev (offset elt : Int) (h : Heap) : Int :=
  data_from_link offset ((h (link_from_data offset elt)).prev_p)

/-- `dll_remove`: `root = none` models `head_link_pp == NULL`.  When the
root cell is supplied and the element is the head, delegate to
`dll_pop_head` on the real root; otherwise pop through a local root made
from the element's own link.  Returns `(removed data pointer, new root
cell contents, new heap)`. -/
def dll_remove (offset : Int) (root : Option Int) (remove_me : Int)
    (h : Heap) : Int × Option Int × Heap :=
  match root with
  | some r =>
    if dll_head offset r = remove_me then
      let s := dll_pop_head offset r h
      (s.1, some s.2.1, s.2.2)
    else
      let local_head := link_from_data offset remove_me
      let s := dll_pop_head offset local_head h
      (s.1, some r, s.2.2)
  | none =>
    let local_head := link_from_data offset remove_me
    let s := dll_pop_head offset local_head h
    (s.1, none, s.2.2)

/-- `dll_pop_tail`: `dll_remove(offset, head_link_pp, dll_tail(offset,
head_link_pp))`.  The root cell is always supplied, so the returned root
is always present. -/
def dll_pop_tail (offset root : Int) (h : Heap) : Int × Int × Heap :=
  let s := dll_remove offset (some root) (dll_tail offset root h) h
  (s.1, s.2.1.getD root, s.2.2)

/-- `dll_ins_before`: note that the head test compares the *data* pointer
`dll_head(offset, head_link_pp)` against the *link* pointer
`LFD(insert_before_me_p)`, exactly as the C source does. -/
def dll_ins_before (offset : Int) (root : Option Int)
    (insert_before_me new_elt : Int) (h : Heap) : Option Int × Heap :=
  match root with
  | some r =>
    if dll_head offset r = link_from_data offset insert_before_me then
      let s := dll_push_head offset r new_elt h
      (some s.1, s.2)
    else
      let link_p := link_from_data offset insert_before_me
      let s := dll_push_head offset link_p new_elt h
      (some r, s.2)
  | none =>
    let link_p := link_from_data offset insert_before_me
    let s := dll_push_head offset link_p new_elt h
    (none, s.2)

/-- `dll_ins_after`: insert before the successor, with no root cell. -/
def dll_ins_after (offset insert_after_me new_elt : Int) (h : Heap) : Heap :=
  (dll_ins_before offset none (dll_next offset insert_after_me h) new_elt h).2

/-- `dll_is_empty`: nonzero iff the root pointer is NULL. -/
def dll_is_empty (root : Int) : Bool := root = 0

/-! ### Sequences of list operations -/

/-- One list operation, as named in the specification.  `remove` is
`dll_remove` with the list reference supplied. -/
inductive Op where
  | pushHead (elt : Int)
  | pushTail (elt : Int)
  | popHead
  | popTail
  | remove (elt : Int)
deriving DecidableEq, Repr

/-- Run one operation on a (root value, heap) state. -/
def applyOp (offset : Int) (s : Int × Heap) : Op → Int × Heap
  | .pushHead e => dll_push_head offset s.1 e s.2
  | .pushTail e => dll_push_tail offset s.1 e s.2
  | .popHead => ((dll_pop_head offset s.1 s.2).2.1, (dll_pop_head offset s.1 s.2).2.2)
  | .popTail => ((dll_pop_tail offset s.1 s.2).2.1, (dll_pop_tail offset s.1 s.2).2.2)
  | .remove e => (((dll_remove offset (some s.1) e s.2).2.1).getD 0,
      (dll_remove offset (some s.1) e s.2).2.2)

/-- Abstract effect of one operation on the list of link addresses. -/
def opAbs (offset : Int) (ls : List Int) : Op → List Int
  | .pushHead e => (e + offset) :: ls
  | .pushTail e => ls ++ [e + offset]
  | .popHead => ls.tail
  | .popTail => ls.dropLast
  | .remove e => ls.erase (e + offset)

/-- Caller contract of one operation: pushed records are fresh with a
non-null link; removed records are members.  Pops are always legal. -/
def opOk (offset : Int) (ls : List Int) : Op → Prop
  | .pushHead e => (e + offset) ∉ ls ∧ e + offset ≠ 0
  | .pushTail e => (e + offset) ∉ ls ∧ e + offset ≠ 0
  | .popHead => True
  | .popTail => True
  | .remove e => (e + offset) ∈ ls

instance (offset : Int) (ls : List Int) (op : Op) : Decidable (opOk offset ls op) :=
  match op with
  | .pushHead _ => inferInstanceAs (Decidable (_ ∧ _))
  | .pushTail _ => inferInstanceAs (Decidable (_ ∧ _))
  | .popHead => isTrue trivial
  | .popTail => isTrue trivial
  | .remove _ => inferInstanceAs (Decidable (_ ∈ _))

/-- Run a sequence of operations. -/
def applyOps (offset : Int) (s : Int × Heap) : List Op → Int × Heap
  | [] => s
  | op :: ops => applyOps offset (applyOp offset s op) ops

/-- Abstract effect of a sequence of operations. -/
def absOps (offset : Int) (ls : List Int) : List Op → List Int
  | [] => ls
  | op :: ops => absOps offset (opAbs offset ls op) ops

/-- The whole sequence respects the caller contract. -/
def opsValid (offset : Int) (ls : List Int) : List Op → Prop
  | [] => True
  | op :: ops => opOk offset ls op ∧ opsValid offset (opAbs offset ls op) ops

instance opsValidDec (offset : Int) :
    (ls : List Int) → (ops : List Op) → Decidable (opsValid offset ls ops)
  | _, [] => isTrue trivial
  | ls, op :: ops =>
    have : Decidable (opsValid offset (opAbs offset ls op) ops) :=
      opsValidDec offset (opAbs offset ls op) ops
    inferInstanceAs (Decidable (_ ∧ _))

/-! ### Concrete states used to evaluate the theorems -/

/-- A heap of nothing but poisoned links. -/
def heap0 : Heap := fun _ => ⟨poison, poison⟩

/-- A heap carrying a one-member list: link `10` in a self-loop. -/
def heap1 : Heap := fun x => if x = 10 then ⟨10, 10⟩ else ⟨poison, poison⟩

/-- A heap carrying a two-member list: links `10` and `20`. -/
def heap2 : Heap :=
  fun x => if x = 10 then ⟨20, 20⟩ else if x = 20 then ⟨10, 10⟩ else ⟨poison, poison⟩

/-- A concrete legal operation sequence. -/
def wops : List Op := [Op.pushTail 1, Op.pushTail 2]

/-- States reached while pushing `1, 2, 3` onto an empty list and popping
three times, at offset `0`. -/
def w1 : Int × Heap := dll_push_tail 0 0 1 heap0

def w2 : Int × Heap := dll_push_tail 0 w1.1 2 w1.2

def w3 : Int × Heap := dll_push_tail 0 w2.1 3 w2.2

def w4 : Int × Int × Heap := dll_pop_head 0 w3.1 w3.2

def w5 : Int × Int × Heap := dll_pop_head 0 w4.2.1 w4.2.2

def w6 : Int × Int × Heap := dll_pop_head 0 w5.2.1 w5.2.2

/-! ### Heap read lemmas -/

@[simp] theorem writeLink_same (h : Heap) (a : Int) (v : Link) :
    writeLink h a v a = v := by simp [writeLink]

@[simp] theorem writeLink_other (h : Heap) (a : Int) (v : Link) {x : Int}
    (hx : x ≠ a) : writeLink h a v x = h x := by simp [writeLink, hx]

@[simp] theorem setNext_same (h : Heap) (a n : Int) :
    setNext h a n a = { h a with next_p := n } := by simp [setNext]

@[simp] theorem setNext_other (h : Heap) (a n : Int) {x : Int} (hx : x ≠ a) :
    setNext h a n x = h x := by simp [setNext, hx]

@[simp] theorem setPrev_same (h : Heap) (a p : Int) :
    setPrev h a p a = { h a with prev_p := p } := by simp [setPrev]

@[simp] theorem setPrev_other (h : Heap) (a p : Int) {x : Int} (hx : x ≠ a) :
    setPrev h a p x = h x := by simp [setPrev, hx]

@[simp] theorem setNext_prev_p (h : Heap) (a n x : Int) :
    (setNext h a n x).prev_p = (h x).prev_p := by
  by_cases hx : x = a <;> simp [setNext, writeLink, hx]

@[simp] theorem setPrev_next_p (h : Heap) (a p x : Int) :
    (setPrev h a p x).next_p = (h x).next_p := by
  by_cases hx : x = a <;> simp [setPrev, writeLink, hx]

@[simp] theorem init_link_same (h : Heap) (a : Int) :
    dll_init_link h a a = ⟨poison, poison⟩ := by
  simp [dll_init_link]

@[simp] theorem init_link_other (h : Heap) (a : Int) {x : Int} (hx : x ≠ a) :
    dll_init_link h a x = h x := by
  simp [dll_init_link, hx]

/-! ### The circular-chain representation predicate -/

/-- `x` is doubly linked to `y`: `x`'s successor is `y` and `y`'s
predecessor is `x`. -/
def nextOk (h : Heap) (x y : Int) : Prop :=
  (h x).next_p = y ∧ (h y).prev_p = x

instance (h : Heap) (x y : Int) : Decidable (nextOk h x y) :=
  inferInstanceAs (Decidable (_ ∧ _))

/-- The link addresses `ls` form a circular doubly-linked chain: starting
from the first element, every consecutive pair is doubly linked and the
last element links back to the first. -/
def isCycle (h : Heap) : List Int → Prop
  | [] => True
  | a :: rest => List.Chain (nextOk h) a (rest ++ [a])

instance chainNextOkDec (h : Heap) : (a : Int) → (l : List Int) →
    Decidable (List.Chain (nextOk h) a l)
  | _, [] => isTrue List.Chain.nil
  | a, b :: l =>
    have : Decidable (List.Chain (nextOk h) b l) := chainNextOkDec h b l
    decidable_of_iff (nextOk h a b ∧ List.Chain (nextOk h) b l)
      List.chain_cons.symm

instance (h : Heap) (ls : List Int) : Decidable (isCycle h ls) :=
  match ls with
  | [] => isTrue trivial
  | a :: rest => chainNextOkDec h a (rest ++ [a])

/-- Abstraction relation: root value `root` and heap `h` represent the
list of link addresses `ls` (in traversal order from the head). -/
def dllRep (h : Heap) (root : Int) (ls : List Int) : Prop :=
  root = ls.headI ∧ ls.Nodup ∧ 0 ∉ ls ∧ isCycle h ls

instance (h : Heap) (root : Int) (ls : List Int) : Decidable (dllRep h root ls) :=
  inferInstanceAs (Decidable (_ ∧ _ ∧ _ ∧ _))

/-! ### Chain lemmas -/

/-- A doubly-linked chain survives a heap modification that preserves the
`next_p` field of every node read as a pair source and the `prev_p` field
of every node read as a pair target. -/
theorem chain_nextOk_congr (h h' : Heap) (a : Int) (l : List Int)
    (ha : (h' a).next_p = (h a).next_p)
    (hnext : ∀ x ∈ l.dropLast, (h' x).next_p = (h x).next_p)
    (hprev : ∀ y ∈ l, (h' y).prev_p = (h y).prev_p)
    (hch : List.Chain (nextOk h) a l) : List.Chain (nextOk h') a l := by
  induction l generalizing a with
  | nil => exact List.Chain.nil
  | cons b l ih =>
    rw [List.chain_cons] at hch ⊢
    obtain ⟨⟨h1, h2⟩, hch⟩ := hch
    refine ⟨⟨by rw [ha, h1], by rw [hprev b (List.mem_cons_self b l), h2]⟩, ?_⟩
    cases l with
    | nil => exact List.Chain.nil
    | cons c l' =>
      apply ih
      · exact hnext b (by simp)
      · intro x hx
        exact hnext x (by simp at hx ⊢; tauto)
      · intro y hy
        exact hprev y (List.mem_cons_of_mem _ hy)
      · exact hch

/-- Swapping the two halves of a closed chain. -/
theorem chain_swap (h : Heap) (x y : Int) (xs ys : List Int) :
    List.Chain (nextOk h) x (xs ++ y :: (ys ++ [x])) ↔
      List.Chain (nextOk h) y (ys ++ x :: (xs ++ [y])) := by
  have L : List.Chain (nextOk h) x (xs ++ y :: (ys ++ [x])) ↔
      List.Chain (nextOk h) x (xs ++ [y]) ∧ List.Chain (nextOk h) y (ys ++ [x]) :=
    List.chain_split
  have R : List.Chain (nextOk h) y (ys ++ x :: (xs ++ [y])) ↔
      List.Chain (nextOk h) y (ys ++ [x]) ∧ List.Chain (nextOk h) x (xs ++ [y]) :=
    List.chain_split
  rw [L, R, and_comm]

/-- A cycle may be rotated: circularity does not depend on which member
the chain is presented from. -/
theorem isCycle_append_comm (h : Heap) (xs ys : List Int) :
    isCycle h (xs ++ ys) ↔ isCycle h (ys ++ xs) := by
  cases xs with
  | nil => simp
  | cons x xs' =>
    cases ys with
    | nil => simp
    | cons y ys' =>
      show List.Chain _ x ((xs' ++ y :: ys') ++ [x]) ↔
        List.Chain _ y ((ys' ++ x :: xs') ++ [y])
      rw [show (xs' ++ y :: ys') ++ [x] = xs' ++ y :: (ys' ++ [x]) by simp,
        show (ys' ++ x :: xs') ++ [y] = ys' ++ x :: (xs' ++ [y]) by simp,
        chain_swap]

/-- A singleton cycle is a self-loop. -/
theorem cycle_single_facts (h : Heap) (a : Int) (hcyc : isCycle h [a]) :
    (h a).next_p = a ∧ (h a).prev_p = a := by
  have hc : List.Chain (nextOk h) a ([] ++ [a]) := hcyc
  rw [List.nil_append, List.chain_singleton] at hc
  exact hc

/-- In a cycle presented as `a :: ys ++ [t]`, the head's `prev_p` is the
last member `t`, the last member's `next_p` is the head, and the interior
chain from `a` down to `t` holds. -/
theorem cycle_last_facts (h : Heap) (a t : Int) (ys : List Int)
    (hcyc : isCycle h (a :: (ys ++ [t]))) :
    (h a).prev_p = t ∧ (h t).next_p = a ∧
      List.Chain (nextOk h) a (ys ++ [t]) := by
  have hc : List.Chain (nextOk h) a (ys ++ t :: [a]) := by
    have hc0 : List.Chain (nextOk h) a ((ys ++ [t]) ++ [a]) := hcyc
    simpa using hc0
  rw [List.chain_split, List.chain_singleton] at hc
  exact ⟨hc.2.2, hc.2.1, hc.1⟩

/-- Walking a doubly-linked chain forwards lands at the last node. -/
theorem chain_iter_next (h : Heap) (a : Int) (l : List Int)
    (hch : List.Chain (nextOk h) a l) :
    (fun x => (h x).next_p)^[l.length] a = (a :: l).getLast (List.cons_ne_nil a l) := by
  induction l generalizing a with
  | nil => rfl
  | cons b l ih =>
    rw [List.chain_cons] at hch
    obtain ⟨⟨h1, _⟩, hch⟩ := hch
    rw [List.length_cons, Function.iterate_succ_apply, List.getLast_cons_cons]
    show (fun x => (h x).next_p)^[l.length] (h a).next_p = _
    rw [h1]
    exact ih b hch

/-- Walking a doubly-linked chain backwards from the last node lands at
the first node. -/
theorem chain_iter_prev (h : Heap) (a : Int) (l : List Int)
    (hch : List.Chain (nextOk h) a l) :
    (fun x => (h x).prev_p)^[l.length] ((a :: l).getLast (List.cons_ne_nil a l)) = a := by
  induction l generalizing a with
  | nil => rfl
  | cons b l ih =>
    rw [List.chain_cons] at hch
    obtain ⟨⟨_, h2⟩, hch⟩ := hch
    rw [List.length_cons, Function.iterate_succ_apply', List.getLast_cons_cons,
      ih b hch]
    exact h2

/-- Following `next_p` around a cycle exactly `size` times returns to the
starting node. -/
theorem isCycle_iter_next (h : Heap) (a : Int) (rest : List Int)
    (hcyc : isCycle h (a :: rest)) :
    (fun x => (h x).next_p)^[rest.length + 1] a = a := by
  have hc : List.Chain (nextOk h) a (rest ++ [a]) := hcyc
  have h2 := chain_iter_next h a (rest ++ [a]) hc
  have hlast : (a :: (rest ++ [a])).getLast (List.cons_ne_nil _ _) = a :=
    List.getLast_append_singleton (a := a) (a :: rest)
  rw [hlast, List.length_append] at h2
  exact h2

/-- Following `prev_p` around a cycle exactly `size` times returns to the
starting node. -/
theorem isCycle_iter_prev (h : Heap) (a : Int) (rest : List Int)
    (hcyc : isCycle h (a :: rest)) :
    (fun x => (h x).prev_p)^[rest.length + 1] a = a := by
  have hc : List.Chain (nextOk h) a (rest ++ [a]) := hcyc
  have h2 := chain_iter_prev h a (rest ++ [a]) hc
  have hlast : (a :: (rest ++ [a])).getLast (List.cons_ne_nil _ _) = a :=
    List.getLast_append_singleton (a := a) (a :: rest)
  rw [hlast, List.length_append] at h2
  exact h2

/-! ### Unfolding the operations -/

theorem push_tail_empty (offset elt : Int) (h : Heap) :
    dll_push_tail offset 0 elt h =
      (elt + offset, writeLink h (elt + offset) ⟨elt + offset, elt + offset⟩) := by
  simp [dll_push_tail, link_from_data]

theorem push_tail_nonempty (offset elt root : Int) (h : Heap) (hr : root ≠ 0) :
    dll_push_tail offset root elt h =
      (root,
        setPrev (setNext (setPrev (setNext h (elt + offset) root) (elt + offset)
          ((h root).prev_p)) ((h root).prev_p) (elt + offset)) root (elt + offset)) := by
  simp [dll_push_tail, link_from_data, hr]

theorem pop_head_empty (offset : Int) (h : Heap) :
    dll_pop_head offset 0 h = (0, 0, h) := by
  simp [dll_pop_head]

theorem pop_head_single (offset root : Int) (h : Heap) (hr : root ≠ 0)
    (hself : (h root).next_p = root) :
    dll_pop_head offset root h = (root - offset, 0, dll_init_link h root) := by
  simp [dll_pop_head, hr, hself, data_from_link]

theorem pop_head_multi (offset root : Int) (h : Heap) (hr : root ≠ 0)
    (hself : (h root).next_p ≠ root) :
    dll_pop_head offset root h = (root - offset, (h root).next_p,
      dll_init_link (setPrev (setNext h ((h root).prev_p) ((h root).next_p))
        ((h root).next_p) ((h root).prev_p)) root) := by
  simp [dll_pop_head, hr, hself, data_from_link]

/-! ### `dll_push_tail` preserves the representation -/

theorem push_tail_rep (offset elt root : Int) (ls : List Int) (h : Heap)
    (hrep : dllRep h root ls) (hfresh : elt + offset ∉ ls) (h0 : elt + offset ≠ 0) :
    dllRep (dll_push_tail offset root elt h).2 (dll_push_tail offset root elt h).1
      (ls ++ [elt + offset]) := by
  obtain ⟨hroot, hnd, hz, hcyc⟩ := hrep
  cases ls with
  | nil =>
    have hr0 : root = 0 := hroot
    rw [hr0, push_tail_empty]
    refine ⟨rfl, by simp, by simpa using fun hc => h0 hc.symm, ?_⟩
    show List.Chain _ (elt + offset) ([] ++ [elt + offset])
    rw [List.nil_append, List.chain_singleton]
    constructor <;> simp
  | cons a rest =>
    have hra : root = a := hroot
    subst hra
    have hr0 : root ≠ 0 := fun hc => hz (hc ▸ List.mem_cons_self _ _)
    have hla : elt + offset ≠ root := fun hc => hfresh (hc ▸ List.mem_cons_self _ _)
    rw [push_tail_nonempty offset elt root h hr0]
    refine ⟨rfl, ?_, ?_, ?_⟩
    · rw [List.nodup_append]
      exact ⟨hnd, List.nodup_singleton _, by
        intro x hx hx1
        rw [List.mem_singleton] at hx1
        exact hfresh (hx1 ▸ hx)⟩
    · intro hc
      rcases List.mem_append.mp hc with hc | hc
      · exact hz hc
      · rw [List.mem_singleton] at hc
        exact h0 hc.symm
    · rcases List.eq_nil_or_concat rest with rfl | ⟨ys, t, rfl⟩
      · -- singleton list: the new element is woven in as the second member
        have hself := cycle_single_facts h root (by simpa using hcyc)
        rw [hself.2]
        show List.Chain _ root ([elt + offset] ++ [root])
        rw [show [elt + offset] ++ [root] = [elt + offset, root] from rfl]
        rw [List.chain_cons, List.chain_singleton]
        refine ⟨⟨?_, ?_⟩, ?_, ?_⟩ <;>
          simp [nextOk, hla, Ne.symm hla]
      · rw [List.concat_eq_append] at hcyc hnd hz hfresh ⊢
        have hlast := cycle_last_facts h root t ys hcyc
        rw [hlast.1]
        -- disequalities needed to trace the four heap writes
        have hnotmem : root ∉ ys ++ [t] := (List.nodup_cons.mp hnd).1
        have hat : root ≠ t := fun hc => hnotmem (by simp [hc])
        have hays : root ∉ ys := fun hc => hnotmem (List.mem_append_left _ hc)
        have htys : t ∉ ys := by
          have := (List.nodup_cons.mp hnd).2
          rw [List.nodup_append] at this
          intro hc
          exact this.2.2 hc (List.mem_singleton_self t)
        have hlt : elt + offset ≠ t := fun hc => hfresh (by simp [hc])
        have hlys : elt + offset ∉ ys := fun hc =>
          hfresh (List.mem_cons_of_mem _ (List.mem_append_left _ hc))
        show List.Chain _ root (((ys ++ [t]) ++ [elt + offset]) ++ [root])
        rw [show ((ys ++ [t]) ++ [elt + offset]) ++ [root] =
          (ys ++ [t]) ++ (elt + offset) :: [root] by simp]
        rw [List.chain_split, List.chain_singleton]
        refine ⟨?_, ?_, ?_⟩
        · rw [show (ys ++ [t]) ++ [elt + offset] = ys ++ t :: [elt + offset] by simp]
          rw [List.chain_split, List.chain_singleton]
          constructor
          · -- interior chain a … t is untouched
            apply chain_nextOk_congr h _ root (ys ++ [t])
            · simp [hla, Ne.symm hla, hat, Ne.symm hat]
            · intro x hx
              rw [List.dropLast_concat] at hx
              have hxl : x ≠ elt + offset := fun hc => hlys (hc ▸ hx)
              have hxt : x ≠ t := fun hc => htys (hc ▸ hx)
              have hxa : x ≠ root := fun hc => hays (hc ▸ hx)
              simp [hxl, hxt, hxa]
            · intro y hy
              have hyl : y ≠ elt + offset := fun hc => hfresh
                (List.mem_cons_of_mem _ (hc ▸ hy))
              have hya : y ≠ root := fun hc => hnotmem (hc ▸ hy)
              simp [hyl, hya]
            · exact hlast.2.2
          · -- the pair t ‑ new
            refine ⟨?_, ?_⟩
            · simp [hat, Ne.symm hat, Ne.symm hlt, hlt, hla, Ne.symm hla]
            · simp [hat, Ne.symm hat, Ne.symm hlt, hlt, hla, Ne.symm hla]
        -- the pair new ‑ a, field by field
        · simp [hat, Ne.symm hat, Ne.symm hlt, hlt, hla, Ne.symm hla]
        · simp [hat, Ne.symm hat, Ne.symm hlt, hlt, hla, Ne.symm hla]

/-! ### `dll_push_head` preserves the representation -/

theorem push_head_rep (offset elt root : Int) (ls : List Int) (h : Heap)
    (hrep : dllRep h root ls) (hfresh : elt + offset ∉ ls) (h0 : elt + offset ≠ 0) :
    (dll_push_head offset root elt h).1 = elt + offset ∧
    dllRep (dll_push_head offset root elt h).2 (elt + offset)
      ((elt + offset) :: ls) := by
  have hz0 : (0 : Int) ∉ ls := hrep.2.2.1
  have hpt := push_tail_rep offset elt root ls h hrep hfresh h0
  obtain ⟨hroot', hnd', hz', hcyc'⟩ := hpt
  refine ⟨rfl, rfl, ?_, ?_, ?_⟩
  · rw [List.nodup_cons]
    rw [List.nodup_append] at hnd'
    exact ⟨hfresh, hnd'.1⟩
  · simp only [List.mem_cons]
    rintro (hc | hc)
    · exact h0 hc.symm
    · exact hz0 hc
  · have hrot := (isCycle_append_comm (dll_push_tail offset root elt h).2
      ls [elt + offset]).mp hcyc'
    simpa using hrot

/-! ### `dll_pop_head` on a cycle -/

theorem pop_head_cycle (offset : Int) (h : Heap) (p : Int) (xs : List Int)
    (hcyc : isCycle h (p :: xs)) (hnd : (p :: xs).Nodup) (hz : 0 ∉ p :: xs) :
    (dll_pop_head offset p h).1 = p - offset ∧
    (dll_pop_head offset p h).2.1 = xs.headI ∧
    isCycle (dll_pop_head offset p h).2.2 xs ∧
    (dll_pop_head offset p h).2.2 p = ⟨poison, poison⟩ := by
  have hp0 : p ≠ 0 := fun hc => hz (hc ▸ List.mem_cons_self _ _)
  cases xs with
  | nil =>
    have hself := cycle_single_facts h p hcyc
    rw [pop_head_single offset p h hp0 hself.1]
    exact ⟨rfl, rfl, trivial, by simp⟩
  | cons b xs' =>
    have hpmem : p ∉ b :: xs' := (List.nodup_cons.mp hnd).1
    have hpb : p ≠ b := fun hc => hpmem (hc ▸ List.mem_cons_self _ _)
    have hch : List.Chain (nextOk h) p ((b :: xs') ++ [p]) := hcyc
    rw [List.cons_append, List.chain_cons] at hch
    obtain ⟨⟨hnext, hprevb⟩, hch⟩ := hch
    have hne : (h p).next_p ≠ p := by rw [hnext]; exact fun hc => hpb hc.symm
    rw [pop_head_multi offset p h hp0 hne, hnext]
    rcases List.eq_nil_or_concat xs' with rfl | ⟨ys, t, rfl⟩
    · -- two-element list
      rw [List.nil_append, List.chain_singleton] at hch
      rw [hch.2]
      refine ⟨rfl, rfl, ?_, by simp⟩
      show List.Chain _ b ([] ++ [b])
      rw [List.nil_append, List.chain_singleton]
      exact ⟨by simp [hpb, Ne.symm hpb], by simp [hpb, Ne.symm hpb]⟩
    · rw [List.concat_eq_append] at hch hpmem hnd hz ⊢
      have hc2 : List.Chain (nextOk h) b (ys ++ t :: [p]) := by simpa using hch
      rw [List.chain_split, List.chain_singleton] at hc2
      obtain ⟨H1, htp, hpt⟩ := hc2
      rw [hpt]
      have hpys : p ∉ ys := fun hc => hpmem (List.mem_cons_of_mem _
        (List.mem_append_left _ hc))
      have hptne : p ≠ t := fun hc => hpmem (by simp [hc])
      have hbmem : b ∉ ys ++ [t] := (List.nodup_cons.mp (List.nodup_cons.mp hnd).2).1
      have hbys : b ∉ ys := fun hc => hbmem (List.mem_append_left _ hc)
      have hbt : b ≠ t := fun hc => hbmem (by simp [hc])
      refine ⟨rfl, rfl, ?_, by simp⟩
      show List.Chain _ b ((ys ++ [t]) ++ [b])
      rw [show (ys ++ [t]) ++ [b] = ys ++ t :: [b] by simp]
      rw [List.chain_split, List.chain_singleton]
      refine ⟨?_, ?_, ?_⟩
      · apply chain_nextOk_congr h _ b (ys ++ [t])
        · simp [hpb, Ne.symm hpb, hbt, Ne.symm hbt]
        · intro x hx
          rw [List.dropLast_concat] at hx
          have hxp : x ≠ p := fun hc => hpys (hc ▸ hx)
          have hxt : x ≠ t := by
            intro hc
            have := (List.nodup_cons.mp (List.nodup_cons.mp hnd).2).2
            rw [List.nodup_append] at this
            exact this.2.2 (hc ▸ hx) (List.mem_singleton_self t)
          simp [hxp, hxt]
        · intro y hy
          have hyp : y ≠ p := fun hc => hpmem (List.mem_cons_of_mem _ (hc ▸ hy))
          have hyb : y ≠ b := fun hc => hbmem (hc ▸ hy)
          simp [hyp, hyb]
        · exact H1
      · simp [hptne, Ne.symm hptne, hbt, Ne.symm hbt]
      · simp [hpb, Ne.symm hpb, hbt, Ne.symm hbt]

/-! ### `dll_pop_head` preserves the representation -/

theorem pop_head_rep (offset root : Int) (ls : List Int) (h : Heap)
    (hrep : dllRep h root ls) :
    (dll_pop_head offset root h).1 = dll_head offset root ∧
    (dll_pop_head offset root h).2.1 = ls.tail.headI ∧
    dllRep (dll_pop_head offset root h).2.2 ls.tail.headI ls.tail ∧
    (root ≠ 0 → (dll_pop_head offset root h).2.2 root = ⟨poison, poison⟩) := by
  obtain ⟨hroot, hnd, hz, hcyc⟩ := hrep
  cases ls with
  | nil =>
    have hr0 : root = 0 := hroot
    rw [hr0, pop_head_empty]
    exact ⟨by simp [dll_head], rfl, ⟨rfl, by simp, by simp, trivial⟩,
      fun hc => absurd rfl hc⟩
  | cons p xs =>
    have hrp : root = p := hroot
    subst hrp
    have hp0 : root ≠ 0 := fun hc => hz (hc ▸ List.mem_cons_self _ _)
    have hpc := pop_head_cycle offset h root xs hcyc hnd hz
    refine ⟨?_, hpc.2.1, ?_, fun _ => hpc.2.2.2⟩
    · rw [hpc.1, dll_head, if_pos hp0]
      rfl
    · exact ⟨rfl, (List.nodup_cons.mp hnd).2,
        fun hc => hz (List.mem_cons_of_mem _ hc),
        by
          have := hpc.2.2.1
          rwa [show ((root :: xs).tail) = xs from rfl]⟩

/-! ### `dll_remove` preserves the representation -/

theorem remove_head_branch (offset root m : Int) (h : Heap)
    (hcond : dll_head offset root = m) :
    dll_remove offset (some root) m h =
      ((dll_pop_head offset root h).1, some (dll_pop_head offset root h).2.1,
        (dll_pop_head offset root h).2.2) := by
  simp [dll_remove, hcond]

theorem remove_local_branch (offset root m : Int) (h : Heap)
    (hcond : dll_head offset root ≠ m) :
    dll_remove offset (some root) m h =
      ((dll_pop_head offset (m + offset) h).1, some root,
        (dll_pop_head offset (m + offset) h).2.2) := by
  simp [dll_remove, hcond, link_from_data]

theorem remove_rep (offset root m : Int) (ls : List Int) (h : Heap)
    (hrep : dllRep h root ls) (hm : m + offset ∈ ls) :
    (dll_remove offset (some root) m h).1 = m ∧
    (dll_remove offset (some root) m h).2.1 =
      some (if m + offset = root then ls.tail.headI else root) ∧
    dllRep (dll_remove offset (some root) m h).2.2
      ((dll_remove offset (some root) m h).2.1.getD 0) (ls.erase (m + offset)) ∧
    (dll_remove offset (some root) m h).2.2 (m + offset) = ⟨poison, poison⟩ := by
  obtain ⟨hroot, hnd, hz, hcyc⟩ := hrep
  cases ls with
  | nil => cases hm
  | cons a rest =>
    have hra : root = a := hroot
    subst hra
    have hr0 : root ≠ 0 := fun hc => hz (hc ▸ List.mem_cons_self _ _)
    by_cases hhead : m + offset = root
    · -- removing the head record: the head branch of the C code fires
      have hcond : dll_head offset root = m := by
        rw [dll_head, if_pos hr0, data_from_link]
        omega
      rw [remove_head_branch offset root m h hcond]
      have hpc := pop_head_cycle offset h root rest hcyc hnd hz
      refine ⟨by rw [hpc.1]; omega, ?_, ?_, ?_⟩
      · simp [hpc.2.1, hhead]
      · rw [show (root :: rest).erase (m + offset) = rest by
          rw [hhead]; exact List.erase_cons_head root rest]
        exact ⟨by simp [hpc.2.1], (List.nodup_cons.mp hnd).2,
          fun hc => hz (List.mem_cons_of_mem _ hc), hpc.2.2.1⟩
      · rw [hhead]; exact hpc.2.2.2
    · -- removing a non-head member: the local-root branch fires
      have hcond : dll_head offset root ≠ m := by
        rw [dll_head, if_pos hr0, data_from_link]
        omega
      rw [remove_local_branch offset root m h hcond]
      have hmem : m + offset ∈ rest := by
        rcases List.mem_cons.mp hm with hc | hc
        · exact absurd hc hhead
        · exact hc
      obtain ⟨r₁, r₂, hr12⟩ := List.append_of_mem hmem
      subst hr12
      -- rotate the cycle so that the removed link is at the front
      have hsplit : root :: (r₁ ++ (m + offset) :: r₂) =
          (root :: r₁) ++ ((m + offset) :: r₂) := by simp
      have hcyc2 : isCycle h (((m + offset) :: r₂) ++ (root :: r₁)) := by
        rw [← isCycle_append_comm, ← hsplit]
        exact hcyc
      have hperm : (root :: (r₁ ++ (m + offset) :: r₂)).Perm
          ((m + offset) :: (r₂ ++ root :: r₁)) := by
        rw [hsplit]
        exact (List.perm_append_comm).trans (by simp)
      have hnd2 : ((m + offset) :: (r₂ ++ root :: r₁)).Nodup := hperm.nodup hnd
      have hz2 : (0 : Int) ∉ (m + offset) :: (r₂ ++ root :: r₁) :=
        fun hc => hz (hperm.mem_iff.mpr hc)
      have hcyc2' : isCycle h ((m + offset) :: (r₂ ++ root :: r₁)) := by
        have : ((m + offset) :: r₂) ++ (root :: r₁) =
            (m + offset) :: (r₂ ++ root :: r₁) := by simp
        rwa [this] at hcyc2
      have hpc := pop_head_cycle offset h (m + offset) (r₂ ++ root :: r₁)
        hcyc2' hnd2 hz2
      have herase : (root :: (r₁ ++ (m + offset) :: r₂)).erase (m + offset) =
          root :: (r₁ ++ r₂) := by
        have hmr1 : m + offset ∉ r₁ := by
          have hndr := (List.nodup_cons.mp hnd).2
          rw [List.nodup_append] at hndr
          exact fun hc => hndr.2.2 hc (List.mem_cons_self _ _)
        rw [List.erase_cons_tail, List.erase_append_right _ hmr1,
          List.erase_cons_head]
        simp [Ne.symm hhead]
      refine ⟨by rw [hpc.1]; omega, by rw [if_neg hhead], ?_,
        hpc.2.2.2⟩
      rw [herase]
      refine ⟨rfl, ?_, ?_, ?_⟩
      · have := hnd.erase (m + offset)
        rwa [herase] at this
      · intro hc
        have := List.mem_of_mem_erase (herase ▸ hc)
        exact hz this
      · have hcyc3 := hpc.2.2.1
        have := (isCycle_append_comm (dll_pop_head offset (m + offset) h).2.2
          r₂ (root :: r₁)).mp hcyc3
        have heq : (root :: r₁) ++ r₂ = root :: (r₁ ++ r₂) := by simp
        rwa [heq] at this

/-! ### `dll_pop_tail` preserves the representation -/

theorem pop_tail_rep (offset root : Int) (ls : List Int) (h : Heap)
    (hrep : dllRep h root ls) :
    (dll_pop_tail offset root h).1 = dll_tail offset root h ∧
    (dll_pop_tail offset root h).2.1 = ls.dropLast.headI ∧
    dllRep (dll_pop_tail offset root h).2.2 ls.dropLast.headI ls.dropLast ∧
    (ls ≠ [] →
      (dll_pop_tail offset root h).2.2 ((dll_pop_tail offset root h).1 + offset) =
        ⟨poison, poison⟩) := by
  obtain ⟨hroot, hnd, hz, hcyc⟩ := hrep
  cases ls with
  | nil =>
    have hr0 : root = 0 := hroot
    rw [hr0]
    have hstep : dll_pop_tail offset 0 h = (0, 0, h) := by
      simp [dll_pop_tail, dll_remove, dll_tail, dll_head, pop_head_empty]
    rw [hstep]
    exact ⟨by simp [dll_tail], rfl, ⟨rfl, by simp, by simp, trivial⟩,
      fun hc => absurd rfl hc⟩
  | cons a rest =>
    have hra : root = a := hroot
    subst hra
    have hr0 : root ≠ 0 := fun hc => hz (hc ▸ List.mem_cons_self _ _)
    rcases List.eq_nil_or_concat rest with rfl | ⟨ys, t, rfl⟩
    · -- singleton list: the tail is the head itself
      have hself := cycle_single_facts h root (by simpa using hcyc)
      have htail : dll_tail offset root h = root - offset := by
        rw [dll_tail, if_pos hr0, hself.2, data_from_link]
      have hm : (root - offset) + offset ∈ [root] := by simp
      have hrr := remove_rep offset root (root - offset) [root] h
        ⟨rfl, hnd, hz, hcyc⟩ hm
      simp only [sub_add_cancel] at hrr
      have hunf : dll_pop_tail offset root h =
          ((dll_remove offset (some root) (root - offset) h).1,
            (dll_remove offset (some root) (root - offset) h).2.1.getD root,
            (dll_remove offset (some root) (root - offset) h).2.2) := by
        simp only [dll_pop_tail, htail]
      rw [hunf]
      rw [hrr.2.1]
      refine ⟨by rw [hrr.1, htail], by simp, ?_, fun _ => ?_⟩
      · have hrep' := hrr.2.2.1
        rw [hrr.2.1] at hrep'
        simpa using hrep'
      · have hp := hrr.2.2.2
        have : (dll_remove offset (some root) (root - offset) h).1 + offset =
            root := by rw [hrr.1]; omega
        rw [this]
        simpa using hp
    · -- at least two members: the tail is the last member t
      rw [List.concat_eq_append] at hnd hz hcyc ⊢
      have hlast := cycle_last_facts h root t ys hcyc
      have htail : dll_tail offset root h = t - offset := by
        rw [dll_tail, if_pos hr0, hlast.1, data_from_link]
      have hm : (t - offset) + offset ∈ root :: (ys ++ [t]) := by simp
      have hta : t ≠ root := by
        have := (List.nodup_cons.mp hnd).1
        exact fun hc => this (by simp [← hc])
      have htys : t ∉ ys := by
        have := (List.nodup_cons.mp hnd).2
        rw [List.nodup_append] at this
        exact fun hc => this.2.2 hc (List.mem_singleton_self t)
      have hrr := remove_rep offset root (t - offset) (root :: (ys ++ [t])) h
        ⟨rfl, hnd, hz, hcyc⟩ hm
      simp only [sub_add_cancel] at hrr
      have hcond : ¬ (t = root) := hta
      rw [if_neg hcond] at hrr
      have herase : (root :: (ys ++ [t])).erase t = root :: ys := by
        rw [List.erase_cons_tail, List.erase_append_right _ htys,
          List.erase_cons_head, List.append_nil]
        simp [Ne.symm hta]
      rw [herase] at hrr
      have hdrop : (root :: (ys ++ [t])).dropLast = root :: ys := by
        simp only [← List.cons_append, List.dropLast_concat]
      have hunf : dll_pop_tail offset root h =
          ((dll_remove offset (some root) (t - offset) h).1,
            (dll_remove offset (some root) (t - offset) h).2.1.getD root,
            (dll_remove offset (some root) (t - offset) h).2.2) := by
        simp only [dll_pop_tail, htail]
      rw [hunf, hdrop, hrr.2.1]
      refine ⟨by rw [hrr.1, htail], by simp, ?_, fun _ => ?_⟩
      · have hrep' := hrr.2.2.1
        rw [hrr.2.1] at hrep'
        simpa using hrep'
      · have hp := hrr.2.2.2
        have heq : (dll_remove offset (some root) (t - offset) h).1 + offset =
            t := by rw [hrr.1]; omega
        rw [heq]
        exact hp

/-- Every legal operation preserves the representation and acts on the
abstract list as described by `opAbs`. -/
theorem applyOp_rep (offset : Int) (root : Int) (h : Heap) (ls : List Int)
    (op : Op) (hrep : dllRep h root ls) (hok : opOk offset ls op) :
    dllRep (applyOp offset (root, h) op).2 (applyOp offset (root, h) op).1
      (opAbs offset ls op) := by
  cases op with
  | pushHead e =>
    have hp := push_head_rep offset e root ls h hrep hok.1 hok.2
    show dllRep (dll_push_head offset root e h).2 (dll_push_head offset root e h).1 _
    rw [hp.1]
    exact hp.2
  | pushTail e =>
    exact push_tail_rep offset e root ls h hrep hok.1 hok.2
  | popHead =>
    have hp := pop_head_rep offset root ls h hrep
    show dllRep (dll_pop_head offset root h).2.2 (dll_pop_head offset root h).2.1 _
    rw [hp.2.1]
    exact hp.2.2.1
  | popTail =>
    have hp := pop_tail_rep offset root ls h hrep
    show dllRep (dll_pop_tail offset root h).2.2 (dll_pop_tail offset root h).2.1 _
    rw [hp.2.1]
    exact hp.2.2.1
  | remove e =>
    have hp := remove_rep offset root e ls h hrep hok
    exact hp.2.2.1

/-- A legal sequence of operations preserves the representation. -/
theorem applyOps_rep (offset : Int) (ops : List Op) :
    ∀ (root : Int) (h : Heap) (ls : List Int),
      dllRep h root ls → opsValid offset ls ops →
      dllRep (applyOps offset (root, h) ops).2 (applyOps offset (root, h) ops).1
        (absOps offset ls ops) := by
  induction ops with
  | nil => intro root h ls hrep _; exact hrep
  | cons op ops ih =>
    intro root h ls hrep hvalid
    have hstep := applyOp_rep offset root h ls op hrep hvalid.1
    have := ih (applyOp offset (root, h) op).1 (applyOp offset (root, h) op).2
      (opAbs offset ls op) hstep hvalid.2
    exact this

/-! ### Iterating `dll_next` and `dll_prev` at the record level -/

theorem iter_dll_next (offset : Int) (h : Heap) :
    ∀ (n : Nat) (x : Int),
      (fun d => dll_next offset d h)^[n] (data_from_link offset x) =
        data_from_link offset ((fun y => (h y).next_p)^[n] x) := by
  intro n
  induction n with
  | zero => intro x; rfl
  | succ n ih =>
    intro x
    rw [Function.iterate_succ_apply, Function.iterate_succ_apply]
    have hstep : dll_next offset (data_from_link offset x) h =
        data_from_link offset ((h x).next_p) := by
      simp only [dll_next, data_from_link, link_from_data]
      have hx : x - offset + offset = x := by ring
      rw [hx]
    rw [hstep, ih ((h x).next_p)]

theorem iter_dll_prev (offset : Int) (h : Heap) :
    ∀ (n : Nat) (x : Int),
      (fun d => dll_prev offset d h)^[n] (data_from_link offset x) =
        data_from_link offset ((fun y => (h y).prev_p)^[n] x) := by
  intro n
  induction n with
  | zero => intro x; rfl
  | succ n ih =>
    intro x
    rw [Function.iterate_succ_apply, Function.iterate_succ_apply]
    have hstep : dll_prev offset (data_from_link offset x) h =
        data_from_link offset ((h x).prev_p) := by
      simp only [dll_prev, data_from_link, link_from_data]
      have hx : x - offset + offset = x := by ring
      rw [hx]
    rw [hstep, ih ((h x).prev_p)]

/-! ### Reading neighbours through `dll_next` / `dll_prev` -/

theorem dll_next_of_nextOk (offset : Int) (h : Heap) (x y : Int)
    (hxy : nextOk h x y) :
    dll_next offset (data_from_link offset x) h = data_from_link offset y := by
  simp only [dll_next, data_from_link, link_from_data]
  have hx : x - offset + offset = x := by ring
  rw [hx, hxy.1]

theorem dll_prev_of_nextOk (offset : Int) (h : Heap) (x y : Int)
    (hxy : nextOk h x y) :
    dll_prev offset (data_from_link offset y) h = data_from_link offset x := by
  simp only [dll_prev, data_from_link, link_from_data]
  have hy : y - offset + offset = y := by ring
  rw [hy, hxy.2]

/-! ### The claims -/

/-- C9: `data_from_link` (recordFromLink) and `link_from_data`
(linkFromRecord) are mutual inverses for every offset, record address and
link address; both are total functions on `Int`, defined without side
effects. -/
theorem claim_C9 (offset d l : Int) :
    data_from_link offset (link_from_data offset d) = d ∧
    link_from_data offset (data_from_link offset l) = l := by
  constructor <;> (simp [data_from_link, link_from_data])

/-- C1 (code-bug exhibit): on a singleton list built by the code itself
at offset `8` (record `92`, link `100`), calling `dll_ins_before` with
the list reference supplied and the current head record `92` as anchor
weaves the new record `192` (link `200`) in immediately before the old
head — yet the returned head reference is still `some 100`, not the new
element's link `200 = link_from_data 8 192`.  The head-update branch is
dead for every nonzero offset, because the code compares the *data*
pointer `dll_head(...)` with the *link* pointer `LFD(insert_before_me_p)`. -/
theorem claim_C1 :
    (dll_push_tail 8 0 92 (fun _ => ⟨poison, poison⟩)).1 = 100 ∧
    dll_head 8 100 = 92 ∧
    (dll_ins_before 8 (some 100) 92 192
        (dll_push_tail 8 0 92 (fun _ => ⟨poison, poison⟩)).2).1 = some 100 ∧
    link_from_data 8 192 = 200 ∧
    ((dll_ins_before 8 (some 100) 92 192
        (dll_push_tail 8 0 92 (fun _ => ⟨poison, poison⟩)).2).2 100).prev_p = 200 ∧
    ((dll_ins_before 8 (some 100) 92 192
        (dll_push_tail 8 0 92 (fun _ => ⟨poison, poison⟩)).2).2 200).next_p = 100 := by
  decide

/-- C8: in a list with exactly one member link `l` (record
`data_from_link offset l`), `dll_next` and `dll_prev` both return the
record itself, for every offset. -/
theorem claim_C8 (offset root l : Int) (h : Heap) (hrep : dllRep h root [l]) :
    dll_next offset (data_from_link offset l) h = data_from_link offset l ∧
    dll_prev offset (data_from_link offset l) h = data_from_link offset l := by
  have hself := cycle_single_facts h l hrep.2.2.2
  exact ⟨dll_next_of_nextOk offset h l l ⟨hself.1, hself.2⟩,
    dll_prev_of_nextOk offset h l l ⟨hself.1, hself.2⟩⟩

/-- C4: `dll_pop_head` returns the record at the head (`dll_head`, which
is `0` = NULL exactly when the list is empty); on an empty list it
returns NULL and leaves root and heap untouched; it removes the head, so
the remaining list is represented by `ls.tail`; and popping the sole
member leaves the list empty. -/
theorem claim_C4 (offset root : Int) (ls : List Int) (h : Heap)
    (hrep : dllRep h root ls) :
    (dll_pop_head offset root h).1 = dll_head offset root ∧
    (dll_is_empty root = true → dll_pop_head offset root h = (0, root, h)) ∧
    dllRep (dll_pop_head offset root h).2.2 (dll_pop_head offset root h).2.1
      ls.tail ∧
    (ls.length = 1 → dll_is_empty (dll_pop_head offset root h).2.1 = true) := by
  have hp := pop_head_rep offset root ls h hrep
  refine ⟨hp.1, ?_, ?_, ?_⟩
  · intro hemp
    have hr0 : root = 0 := by simpa [dll_is_empty] using hemp
    rw [hr0, pop_head_empty]
  · rw [hp.2.1]
    exact hp.2.2.1
  · intro hlen
    obtain ⟨x, hx⟩ := List.length_eq_one.mp hlen
    rw [hp.2.1, hx]
    rfl

/-- C10: removing a member that is not at the head, with the list
reference supplied, returns that record and leaves the head reference
unchanged (`some root`); and `dll_pop_head` on any empty list returns
NULL and leaves the root and the whole heap unchanged. -/
theorem claim_C10 (offset root m : Int) (ls : List Int) (h : Heap)
    (hrep : dllRep h root ls) (hm : m + offset ∈ ls)
    (hnh : m + offset ≠ root) :
    (dll_remove offset (some root) m h).1 = m ∧
    (dll_remove offset (some root) m h).2.1 = some root ∧
    (∀ (root0 : Int) (h0 : Heap), dll_is_empty root0 = true →
      dll_pop_head offset root0 h0 = (0, root0, h0)) := by
  have hr := remove_rep offset root m ls h hrep hm
  refine ⟨hr.1, ?_, ?_⟩
  · rw [hr.2.1, if_neg hnh]
  · intro root0 h0 hemp
    have hr0 : root0 = 0 := by simpa [dll_is_empty] using hemp
    rw [hr0, pop_head_empty]

/-- C2: starting from `dll_init_root`, after any contract-respecting
sequence of pushHead / pushTail / popHead / popTail / remove operations,
if the list is non-empty then following `dll_next` from the head exactly
`size` times returns to the head, and likewise for `dll_prev`, where
`size` is the number of members (the length of the abstract list). -/
theorem claim_C2 (offset : Int) (h0 : Heap) (ops : List Op)
    (hvalid : opsValid offset [] ops)
    (hne : (applyOps offset (dll_init_root, h0) ops).1 ≠ 0) :
    (fun d => dll_next offset d (applyOps offset (dll_init_root, h0) ops).2)^[
        (absOps offset [] ops).length]
      (dll_head offset (applyOps offset (dll_init_root, h0) ops).1) =
      dll_head offset (applyOps offset (dll_init_root, h0) ops).1 ∧
    (fun d => dll_prev offset d (applyOps offset (dll_init_root, h0) ops).2)^[
        (absOps offset [] ops).length]
      (dll_head offset (applyOps offset (dll_init_root, h0) ops).1) =
      dll_head offset (applyOps offset (dll_init_root, h0) ops).1 := by
  have hrep0 : dllRep h0 dll_init_root [] :=
    ⟨rfl, List.nodup_nil, List.not_mem_nil 0, trivial⟩
  have hrep := applyOps_rep offset ops dll_init_root h0 [] hrep0 hvalid
  obtain ⟨hroot, hnd, hz, hcyc⟩ := hrep
  rcases hls : absOps offset [] ops with _ | ⟨a, rest⟩
  · rw [hls] at hroot
    simp only [List.headI_nil] at hroot
    exact absurd hroot hne
  · simp only [hls] at hroot hnd hz hcyc ⊢
    have hra : (applyOps offset (dll_init_root, h0) ops).1 = a := hroot
    have ha0 : a ≠ 0 := fun hc => hz (hc ▸ List.mem_cons_self _ _)
    have hhead : dll_head offset (applyOps offset (dll_init_root, h0) ops).1 =
        data_from_link offset a := by
      rw [hra, dll_head, if_pos ha0]
    rw [hhead, List.length_cons]
    rw [iter_dll_next offset (applyOps offset (dll_init_root, h0) ops).2
      (rest.length + 1) a]
    rw [iter_dll_prev offset (applyOps offset (dll_init_root, h0) ops).2
      (rest.length + 1) a]
    rw [isCycle_iter_next (applyOps offset (dll_init_root, h0) ops).2 a rest hcyc]
    rw [isCycle_iter_prev (applyOps offset (dll_init_root, h0) ops).2 a rest hcyc]
    exact ⟨rfl, rfl⟩

/-- C5: `dll_pop_tail` is the positional remove of the record at the
tail with the list reference supplied — literally by delegation — and
the tail record is `dll_prev` of the head; it returns the tail record,
returns NULL on an empty list leaving the state unchanged, and leaves
the remaining list represented by `ls.dropLast`. -/
theorem claim_C5 (offset root : Int) (ls : List Int) (h : Heap)
    (hrep : dllRep h root ls) :
    (dll_pop_tail offset root h =
      ((dll_remove offset (some root) (dll_tail offset root h) h).1,
        (dll_remove offset (some root) (dll_tail offset root h) h).2.1.getD root,
        (dll_remove offset (some root) (dll_tail offset root h) h).2.2)) ∧
    (root ≠ 0 →
      dll_tail offset root h = dll_prev offset (dll_head offset root) h) ∧
    (dll_pop_tail offset root h).1 = dll_tail offset root h ∧
    (dll_is_empty root = true → dll_pop_tail offset root h = (0, 0, h)) ∧
    dllRep (dll_pop_tail offset root h).2.2 (dll_pop_tail offset root h).2.1
      ls.dropLast := by
  have hp := pop_tail_rep offset root ls h hrep
  refine ⟨rfl, ?_, hp.1, ?_, ?_⟩
  · intro hr0
    rw [dll_tail, if_pos hr0, dll_head, if_pos hr0]
    simp only [dll_prev, link_from_data, data_from_link]
    have hx : root - offset + offset = root := by ring
    rw [hx]
  · intro hemp
    have hr0 : root = 0 := by simpa [dll_is_empty] using hemp
    rw [hr0]
    simp [dll_pop_tail, dll_remove, dll_tail, dll_head, pop_head_empty]
  · rw [hp.2.1]
    exact hp.2.2.1

/-- C6: `dll_ins_after` with the current tail record as anchor makes the
new record the new tail while the same root still represents the list
(the head record is unchanged; indeed `dll_ins_after` receives no root
cell, returns only a heap, and `dll_head` depends only on the root
value). -/
theorem claim_C6 (offset root new_elt : Int) (ls : List Int) (h : Heap)
    (hrep : dllRep h root ls) (hne : ls ≠ [])
    (hfresh : new_elt + offset ∉ ls) (h0 : new_elt + offset ≠ 0) :
    dll_tail offset root
        (dll_ins_after offset (dll_tail offset root h) new_elt h) = new_elt ∧
    dllRep (dll_ins_after offset (dll_tail offset root h) new_elt h) root
      (ls ++ [new_elt + offset]) := by
  obtain ⟨hroot, hnd, hz, hcyc⟩ := hrep
  cases ls with
  | nil => exact absurd rfl hne
  | cons a rest =>
    have hra : root = a := hroot
    subst hra
    have hr0 : root ≠ 0 := fun hc => hz (hc ▸ List.mem_cons_self _ _)
    -- the link address t of the tail member, with tail facts
    obtain ⟨t, hprevt, hnextt⟩ :
        ∃ t, (h root).prev_p = t ∧ (h t).next_p = root := by
      rcases List.eq_nil_or_concat rest with rfl | ⟨ys, t, rfl⟩
      · have hs := cycle_single_facts h root (by simpa using hcyc)
        exact ⟨root, hs.2, hs.1⟩
      · rw [List.concat_eq_append] at hcyc
        have hl := cycle_last_facts h root t ys hcyc
        exact ⟨t, hl.1, hl.2.1⟩
    have htail : dll_tail offset root h = t - offset := by
      rw [dll_tail, if_pos hr0, hprevt, data_from_link]
    have hnexttail : dll_next offset (t - offset) h = root - offset := by
      simp only [dll_next, link_from_data, data_from_link]
      have hx : t - offset + offset = t := by ring
      rw [hx, hnextt]
    have hheap : dll_ins_after offset (dll_tail offset root h) new_elt h =
        (dll_push_tail offset root new_elt h).2 := by
      rw [htail]
      show (dll_ins_before offset none (dll_next offset (t - offset) h)
        new_elt h).2 = _
      rw [hnexttail]
      show (dll_push_head offset (link_from_data offset (root - offset))
        new_elt h).2 = _
      have hx : root - offset + offset = root := by ring
      rw [show link_from_data offset (root - offset) = root from by
        rw [link_from_data]; ring]
      rfl
    rw [hheap]
    have hpt := push_tail_rep offset new_elt root (root :: rest) h
      ⟨rfl, hnd, hz, hcyc⟩ hfresh h0
    rw [push_tail_nonempty offset new_elt root h hr0] at hpt ⊢
    refine ⟨?_, hpt⟩
    -- the new tail is the inserted record
    have hcyc' := hpt.2.2.2
    have hshape : (root :: rest) ++ [new_elt + offset] =
        root :: (rest ++ [new_elt + offset]) := by simp
    rw [hshape] at hcyc'
    have hl := cycle_last_facts _ root (new_elt + offset) rest hcyc'
    rw [dll_tail, if_pos hr0, hl.1, data_from_link]
    ring

/-- C7: every removal (`dll_pop_head`, `dll_remove`, `dll_pop_tail`)
re-poisons the removed record's link — the final heap holds, at the
removed link address, exactly the value `dll_init_link` writes — before
the record is returned. -/
theorem claim_C7 (offset root m : Int) (ls : List Int) (h : Heap)
    (hrep : dllRep h root ls) :
    (root ≠ 0 →
      (dll_pop_head offset root h).2.2 root = dll_init_link h root root) ∧
    (m + offset ∈ ls →
      (dll_remove offset (some root) m h).2.2 (m + offset) =
        dll_init_link h (m + offset) (m + offset)) ∧
    (ls ≠ [] →
      (dll_pop_tail offset root h).2.2
          ((dll_pop_tail offset root h).1 + offset) =
        dll_init_link h ((dll_pop_tail offset root h).1 + offset)
          ((dll_pop_tail offset root h).1 + offset)) := by
  refine ⟨?_, ?_, ?_⟩
  · intro hr0
    have hp := pop_head_rep offset root ls h hrep
    rw [hp.2.2.2 hr0, init_link_same]
  · intro hm
    have hr := remove_rep offset root m ls h hrep hm
    rw [hr.2.2.2, init_link_same]
  · intro hne
    have hp := pop_tail_rep offset root ls h hrep
    rw [hp.2.2.2 hne, init_link_same]

theorem dfl_add (offset x : Int) : data_from_link offset (x + offset) = x := by
  simp [data_from_link]

/-- C3: on an empty list, `pushTail a; pushTail b; pushTail c` yields
head `a`, `next(head) = b`, `next(next(head)) = c`; then three
`popHead`s return `a`, `b`, `c` in that order and leave the list
empty. -/
theorem claim_C3 (offset a b c root0 : Int) (h : Heap)
    (s1 s2 s3 : Int × Heap) (p1 p2 p3 : Int × Int × Heap)
    (hempty : dll_is_empty root0 = true)
    (hab : a ≠ b) (hac : a ≠ c) (hbc : b ≠ c)
    (ha0 : a + offset ≠ 0) (hb0 : b + offset ≠ 0) (hc0 : c + offset ≠ 0)
    (hs1 : s1 = dll_push_tail offset root0 a h)
    (hs2 : s2 = dll_push_tail offset s1.1 b s1.2)
    (hs3 : s3 = dll_push_tail offset s2.1 c s2.2)
    (hp1 : p1 = dll_pop_head offset s3.1 s3.2)
    (hp2 : p2 = dll_pop_head offset p1.2.1 p1.2.2)
    (hp3 : p3 = dll_pop_head offset p2.2.1 p2.2.2) :
    dll_head offset s3.1 = a ∧
    dll_next offset (dll_head offset s3.1) s3.2 = b ∧
    dll_next offset (dll_next offset (dll_head offset s3.1) s3.2) s3.2 = c ∧
    p1.1 = a ∧ p2.1 = b ∧ p3.1 = c ∧ dll_is_empty p3.2.1 = true := by
  have hroot0 : root0 = 0 := by simpa [dll_is_empty] using hempty
  have hrep0 : dllRep h root0 [] := ⟨by simp [hroot0], List.nodup_nil,
    List.not_mem_nil 0, trivial⟩
  have r1 := push_tail_rep offset a root0 [] h hrep0 (by simp) ha0
  rw [← hs1, List.nil_append] at r1
  have r2 := push_tail_rep offset b s1.1 [a + offset] s1.2 r1
    (by simp; omega) hb0
  rw [← hs2, show [a + offset] ++ [b + offset] = [a + offset, b + offset]
    from rfl] at r2
  have r3 := push_tail_rep offset c s2.1 [a + offset, b + offset] s2.2 r2
    (by simp; constructor <;> omega) hc0
  rw [← hs3, show [a + offset, b + offset] ++ [c + offset] =
    [a + offset, b + offset, c + offset] from rfl] at r3
  have hr3root : s3.1 = a + offset := r3.1
  have hch : List.Chain (nextOk s3.2) (a + offset)
      ([b + offset, c + offset] ++ [a + offset]) := r3.2.2.2
  rw [show [b + offset, c + offset] ++ [a + offset] =
    [b + offset, c + offset, a + offset] from rfl] at hch
  rw [List.chain_cons, List.chain_cons, List.chain_singleton] at hch
  obtain ⟨hab', hbc', hca'⟩ := hch
  have hhead : dll_head offset s3.1 = a := by
    rw [hr3root, dll_head, if_pos ha0, dfl_add]
  have hnext1 := dll_next_of_nextOk offset s3.2 (a + offset) (b + offset) hab'
  rw [dfl_add, dfl_add] at hnext1
  have hnext2 := dll_next_of_nextOk offset s3.2 (b + offset) (c + offset) hbc'
  rw [dfl_add, dfl_add] at hnext2
  have q1 := pop_head_rep offset s3.1 [a + offset, b + offset, c + offset]
    s3.2 r3
  rw [← hp1] at q1
  have q1rep : dllRep p1.2.2 p1.2.1 [b + offset, c + offset] := by
    rw [q1.2.1]
    exact q1.2.2.1
  have q2 := pop_head_rep offset p1.2.1 [b + offset, c + offset] p1.2.2 q1rep
  rw [← hp2] at q2
  have q2rep : dllRep p2.2.2 p2.2.1 [c + offset] := by
    rw [q2.2.1]
    exact q2.2.2.1
  have q3 := pop_head_rep offset p2.2.1 [c + offset] p2.2.2 q2rep
  rw [← hp3] at q3
  refine ⟨hhead, by rw [hhead]; exact hnext1,
    by rw [hhead, hnext1]; exact hnext2, by rw [q1.1, hhead],
    ?_, ?_, ?_⟩
  · rw [q2.1, q1.2.1]
    show dll_head offset (b + offset) = b
    rw [dll_head, if_pos hb0, dfl_add]
  · rw [q3.1, q2.2.1]
    show dll_head offset (c + offset) = c
    rw [dll_head, if_pos hc0, dfl_add]
  · rw [q3.2.1]
    rfl

/-! ### Concrete evaluations of the theorems (witnesses) -/

/-- C2 evaluated on a concrete legal sequence at offset `5`. -/
theorem claim_C2_witness :
    opsValid 5 [] wops ∧
    (applyOps 5 (dll_init_root, heap0) wops).1 ≠ 0 ∧
    ((fun d => dll_next 5 d (applyOps 5 (dll_init_root, heap0) wops).2)^[
        (absOps 5 [] wops).length]
      (dll_head 5 (applyOps 5 (dll_init_root, heap0) wops).1) =
      dll_head 5 (applyOps 5 (dll_init_root, heap0) wops).1 ∧
    (fun d => dll_prev 5 d (applyOps 5 (dll_init_root, heap0) wops).2)^[
        (absOps 5 [] wops).length]
      (dll_head 5 (applyOps 5 (dll_init_root, heap0) wops).1) =
      dll_head 5 (applyOps 5 (dll_init_root, heap0) wops).1) :=
  ⟨by decide, by decide, claim_C2 5 heap0 wops (by decide) (by decide)⟩

/-- C3 evaluated at offset `0` with records `1`, `2`, `3`. -/
theorem claim_C3_witness :
    (dll_is_empty (0 : Int) = true ∧ (1 : Int) ≠ 2 ∧ (1 : Int) ≠ 3 ∧
      (2 : Int) ≠ 3 ∧ (1 : Int) + 0 ≠ 0 ∧ (2 : Int) + 0 ≠ 0 ∧
      (3 : Int) + 0 ≠ 0 ∧
      w1 = dll_push_tail 0 0 1 heap0 ∧ w2 = dll_push_tail 0 w1.1 2 w1.2 ∧
      w3 = dll_push_tail 0 w2.1 3 w2.2 ∧ w4 = dll_pop_head 0 w3.1 w3.2 ∧
      w5 = dll_pop_head 0 w4.2.1 w4.2.2 ∧ w6 = dll_pop_head 0 w5.2.1 w5.2.2) ∧
    (dll_head 0 w3.1 = 1 ∧
     dll_next 0 (dll_head 0 w3.1) w3.2 = 2 ∧
     dll_next 0 (dll_next 0 (dll_head 0 w3.1) w3.2) w3.2 = 3 ∧
     w4.1 = 1 ∧ w5.1 = 2 ∧ w6.1 = 3 ∧ dll_is_empty w6.2.1 = true) :=
  ⟨⟨by decide, by decide, by decide, by decide, by decide, by decide, by decide,
    rfl, rfl, rfl, rfl, rfl, rfl⟩,
   claim_C3 0 1 2 3 0 heap0 w1 w2 w3 w4 w5 w6 (by decide) (by decide)
     (by decide) (by decide) (by decide) (by decide) (by decide)
     rfl rfl rfl rfl rfl rfl⟩

/-- C4 evaluated on a two-member list at offset `1`. -/
theorem claim_C4_witness :
    dllRep heap2 10 [10, 20] ∧
    ((dll_pop_head 1 10 heap2).1 = dll_head 1 10 ∧
     (dll_is_empty 10 = true → dll_pop_head 1 10 heap2 = (0, 10, heap2)) ∧
     dllRep (dll_pop_head 1 10 heap2).2.2 (dll_pop_head 1 10 heap2).2.1
       ([10, 20].tail) ∧
     ([(10 : Int), 20].length = 1 →
       dll_is_empty (dll_pop_head 1 10 heap2).2.1 = true)) :=
  ⟨by decide, claim_C4 1 10 [10, 20] heap2 (by decide)⟩

/-- C5 evaluated on a two-member list at offset `1`. -/
theorem claim_C5_witness :
    dllRep heap2 10 [10, 20] ∧
    ((dll_pop_tail 1 10 heap2 =
       ((dll_remove 1 (some 10) (dll_tail 1 10 heap2) heap2).1,
         (dll_remove 1 (some 10) (dll_tail 1 10 heap2) heap2).2.1.getD 10,
         (dll_remove 1 (some 10) (dll_tail 1 10 heap2) heap2).2.2)) ∧
     ((10 : Int) ≠ 0 → dll_tail 1 10 heap2 = dll_prev 1 (dll_head 1 10) heap2) ∧
     (dll_pop_tail 1 10 heap2).1 = dll_tail 1 10 heap2 ∧
     (dll_is_empty 10 = true → dll_pop_tail 1 10 heap2 = (0, 0, heap2)) ∧
     dllRep (dll_pop_tail 1 10 heap2).2.2 (dll_pop_tail 1 10 heap2).2.1
       ([10, 20].dropLast)) :=
  ⟨by decide, claim_C5 1 10 [10, 20] heap2 (by decide)⟩

/-- C6 evaluated on a one-member list at offset `1`, inserting record
`19` (link `20`) after the tail. -/
theorem claim_C6_witness :
    (dllRep heap1 10 [10] ∧ ([(10 : Int)] ≠ []) ∧
      (19 : Int) + 1 ∉ [(10 : Int)] ∧ (19 : Int) + 1 ≠ 0) ∧
    (dll_tail 1 10 (dll_ins_after 1 (dll_tail 1 10 heap1) 19 heap1) = 19 ∧
     dllRep (dll_ins_after 1 (dll_tail 1 10 heap1) 19 heap1) 10
       ([10] ++ [19 + 1])) :=
  ⟨⟨by decide, by decide, by decide, by decide⟩,
   claim_C6 1 10 19 [10] heap1 (by decide) (by decide) (by decide) (by decide)⟩

/-- C7 evaluated on a two-member list at offset `1`, with `19` the
record of the non-head link `20`. -/
theorem claim_C7_witness :
    dllRep heap2 10 [10, 20] ∧
    (((10 : Int) ≠ 0 →
       (dll_pop_head 1 10 heap2).2.2 10 = dll_init_link heap2 10 10) ∧
     ((19 : Int) + 1 ∈ [(10 : Int), 20] →
       (dll_remove 1 (some 10) 19 heap2).2.2 (19 + 1) =
         dll_init_link heap2 (19 + 1) (19 + 1)) ∧
     ([(10 : Int), 20] ≠ [] →
       (dll_pop_tail 1 10 heap2).2.2 ((dll_pop_tail 1 10 heap2).1 + 1) =
         dll_init_link heap2 ((dll_pop_tail 1 10 heap2).1 + 1)
           ((dll_pop_tail 1 10 heap2).1 + 1))) :=
  ⟨by decide, claim_C7 1 10 19 [10, 20] heap2 (by decide)⟩

/-- C8 evaluated on a one-member list at offset `1`. -/
theorem claim_C8_witness :
    dllRep heap1 10 [10] ∧
    (dll_next 1 (data_from_link 1 10) heap1 = data_from_link 1 10 ∧
     dll_prev 1 (data_from_link 1 10) heap1 = data_from_link 1 10) :=
  ⟨by decide, claim_C8 1 10 10 heap1 (by decide)⟩

/-- C10 evaluated on a two-member list at offset `1`, removing the
record `19` of the non-head link `20`. -/
theorem claim_C10_witness :
    (dllRep heap2 10 [10, 20] ∧ (19 : Int) + 1 ∈ [(10 : Int), 20] ∧
      (19 : Int) + 1 ≠ 10) ∧
    ((dll_remove 1 (some 10) 19 heap2).1 = 19 ∧
     (dll_remove 1 (some 10) 19 heap2).2.1 = some 10 ∧
     (∀ (root0 : Int) (h0 : Heap), dll_is_empty root0 = true →
       dll_pop_head 1 root0 h0 = (0, root0, h0))) :=
  ⟨⟨by decide, by decide, by decide⟩,
   claim_C10 1 10 19 [10, 20] heap2 (by decide) (by decide) (by decide)⟩

end Dll
